import Mathlib

/-!
Verification of the debate orchestration engine of `strategy_debate.py`
(multi-round, multi-provider critique-and-revision loop).

The Python source is shallowly embedded over `Str := List Char`.  Text is
modelled character-exactly; the two regular expressions used by the output
parser are specialised to executable search functions (see the comments at
`tryAt` and `regexSearch1`); network calls are abstracted as function
parameters; file I/O of the checkpoint store is abstracted as a map from
`(round, reviewer-index)` cells to optional artifact pairs.
-/

namespace StrategyDebate

abbrev Str := List Char

def str (s : String) : Str := s.data

/-- ASCII fragment of Python's whitespace class (`str.strip` / regex `\s`). -/
def isSpace (c : Char) : Bool :=
  c == ' ' || c == '\t' || c == '\n' || c == '\r' || c == '\x0b' || c == '\x0c'

/-- Python `s.strip()`: drop whitespace from both ends. -/
def pyStrip (s : Str) : Str :=
  ((s.dropWhile isSpace).reverse.dropWhile isSpace).reverse

/-- Python `s.split("\n")`. -/
def splitNl : Str → List Str
  | [] => [[]]
  | c :: rest =>
    if c = '\n' then [] :: splitNl rest
    else
      match splitNl rest with
      | [] => [[c]]
      | h :: t => (c :: h) :: t

/-- Python `"\n".join(xs)`. -/
def joinNl : List Str → Str
  | [] => []
  | [x] => x
  | x :: y :: t => x ++ '\n' :: joinNl (y :: t)

/-- First index at which `pat` occurs as a contiguous sublist of `s`
(Python `s.find(pat)`; `isSome` of it is Python `pat in s`). -/
def findSub (pat : Str) : Str → Option Nat
  | [] => if pat.isPrefixOf [] then some 0 else none
  | c :: rest =>
    if pat.isPrefixOf (c :: rest) then some 0
    else (findSub pat rest).map (· + 1)

def containsSub (pat s : Str) : Bool := (findSub pat s).isSome

def lowerStr (s : Str) : Str := s.map Char.toLower

/-! ## Critique-log compression (`compress_critique_log`) -/

def dissensMark : Str := str "[DISSENS]"

/-- The lines assembled by `compress_critique_log` before the final length
check: `headers + dissens + other[:10]` from the Python source. -/
def compressParts (lines : List Str) : List Str :=
  let dissens := lines.filter (fun l => containsSub dissensMark l)
  let headers := lines.filter (fun l => (str "[Runde").isPrefixOf l)
  let other := lines.filter
    (fun l => (str "- [").isPrefixOf l && !containsSub dissensMark l)
  headers ++ dissens ++ other.take 10

/-- `compress_critique_log(full_log, max_chars)` from the source. -/
def compress_critique_log (full_log : Str) (max_chars : Nat) : Str :=
  if full_log.length ≤ max_chars then full_log
  else
    let compressed := joinNl (compressParts (splitNl full_log))
    if compressed.length > max_chars then
      compressed.take max_chars ++ str "\n... (gekürzt)"
    else compressed

/-! ## Retry wrapper (`_retry`) -/

/-- The observable attributes of a Python exception used by `_retry`. -/
structure PyErr where
  status_code : Option Int
  status : Option Int
  msg : Str
deriving DecidableEq

/-- Python `a or b` on optional integers (`None` and `0` are falsy). -/
def pyOr (a b : Option Int) : Option Int :=
  match a with
  | some v => if v = 0 then b else some v
  | none => b

def transientStatus : Option Int → Bool
  | some v => v == 429 || v == 500 || v == 502 || v == 503 || v == 529
  | none => false

/-- Transience classification of `_retry`.  The source first tests the
status, then (only when that failed) the message substrings; the net
effect is this disjunction. -/
def isTransient (e : PyErr) : Bool :=
  transientStatus (pyOr e.status_code e.status)
  || containsSub (str "rate") (lowerStr e.msg)
  || containsSub (str "overloaded") (lowerStr e.msg)

/-- The `for attempt in range(max_retries)` loop of `_retry`, from a given
attempt index.  `f n` is the outcome of the wrapped call on attempt `n`.
Returns the Python result (`none` models falling out of an empty loop and
returning `None`) together with the list of back-off sleeps performed. -/
def retryFrom {α : Type} (f : Nat → Except PyErr α) (max_retries attempt : Nat) :
    Option (Except PyErr α) × List Nat :=
  if _h : attempt < max_retries then
    match f attempt with
    | .ok v => (some (.ok v), [])
    | .error e =>
      if isTransient e = true ∧ attempt < max_retries - 1 then
        let tailRes := retryFrom f max_retries (attempt + 1)
        (tailRes.1, 2 ^ (attempt + 1) :: tailRes.2)
      else (some (.error e), [])
  else (none, [])
termination_by max_retries - attempt
decreasing_by omega

/-- `_retry(func, max_retries)`. -/
def pyRetry {α : Type} (f : Nat → Except PyErr α) (max_retries : Nat) :
    Option (Except PyErr α) × List Nat :=
  retryFrom f max_retries 0

/-! ## Output parser (`parse_structured_output`) -/

def mDOKUMENT : Str := str "---DOKUMENT---"

def mKRITIK : Str := str "---KRITIKPUNKTE---"

def mENDE : Str := str "---ENDE---"

/-- The fixed fallback critique placeholder of the source. -/
def noCritique : Str := str "(Keine strukturierten Kritikpunkte extrahiert)"

/-- Index of the last newline character of `l`, if any. -/
def lastNl : Str → Option Nat
  | [] => none
  | c :: rest =>
    match lastNl rest with
    | some p => some (p + 1)
    | none => if c = '\n' then some 0 else none

/-- One attempted match of the pattern tail `\s*\n(.*?)m2` at a fixed
start position; `rest` is the text right after the leading literal
marker.  Python's greedy `\s*` places the mandatory `\n` at the last
newline of the maximal whitespace run.  Backtracking to an earlier
newline can never rescue a failed match, because every candidate start
position gained for `m2` lies inside the whitespace run while `m2`
starts with a non-whitespace character (`-` in all three markers), so
choosing the last newline is exact.  The lazy group then captures up to
the first following occurrence of `m2`. -/
def tryAt (m2 rest : Str) : Option Str :=
  match lastNl (rest.takeWhile isSpace) with
  | none => none
  | some p =>
    match findSub m2 (rest.drop (p + 1)) with
    | none => none
    | some m => some ((rest.drop (p + 1)).take m)

/-- `re.search(m1 + r"\s*\n(.*?)" + m2, s, re.DOTALL)` specialised to the
marker patterns of the source, returning the captured group: scan start
positions left to right; at each occurrence of the literal `m1` attempt
the rest of the pattern via `tryAt`, else move one position right. -/
def regexSearch1 (m1 m2 : Str) : Str → Option Str
  | [] => none
  | c :: rest =>
    if m1.isPrefixOf (c :: rest) then
      match tryAt m2 ((c :: rest).drop m1.length) with
      | some g => some g
      | none => regexSearch1 m1 m2 rest
    else regexSearch1 m1 m2 rest

/-- `parse_structured_output(raw)`: both sections extracted and stripped
on success, otherwise the raw reply stripped plus the fixed placeholder. -/
def parse_structured_output (raw : Str) : Str × Str :=
  match regexSearch1 mDOKUMENT mKRITIK raw, regexSearch1 mKRITIK mENDE raw with
  | some d, some c => (pyStrip d, pyStrip c)
  | _, _ => (pyStrip raw, noCritique)

/-- A reply with all three markers in canonical shape: each marker is
followed by a newline, `d` is the document section body and `k` the
critique section body. -/
def wellFormedRaw (pre d k post : Str) : Str :=
  pre ++ (mDOKUMENT ++ '\n' :: (d ++ (mKRITIK ++ '\n' :: (k ++ (mENDE ++ post)))))

/-! ## Claim C4: retry policy -/

def errTransient : PyErr := ⟨some 429, none, []⟩

def errFatal : PyErr := ⟨none, none, str "bad auth"⟩

/-! ## Checkpoint store and resume scan (`save_intermediate` / `find_resume_point`)

The on-disk artifact pairs are abstracted as a map
`cp : Nat → Nat → Option Checkpoint` from `(round, reviewer index)` to
the saved (document, critique) pair; a cell is `some` exactly when both
files exist. -/

/-- Lower-case reviewer directory names, as in the source's `systems`. -/
def systems : List Str := [str "claude", str "perplexity", str "chatgpt"]

/-- Display names used by the run loop's `steps` table. -/
def stepNames : List Str := [str "Claude", str "Perplexity", str "ChatGPT"]

/-- Python `s.capitalize()`: first character upper-cased, rest
lower-cased (ASCII behaviour, which covers the three reviewer names). -/
def capitalize : Str → Str
  | [] => []
  | c :: rest => c.toUpper :: rest.map Char.toLower

def natStr (n : Nat) : Str := (toString n).data

/-- The log-entry template `f"\n[Runde {r} – {name}]\n{critique}\n"`. -/
def logHeader (name : Str) (r : Nat) (critique : Str) : Str :=
  str "\n[Runde " ++ natStr r ++ str " – " ++ name ++ str "]\n" ++
    critique ++ str "\n"

structure Checkpoint where
  doc : Str
  critique : Str
deriving DecidableEq

/-- The `(round, reviewer index)` cells scanned by `find_resume_point`,
for rounds `1..n` in order, three reviewers per round. -/
def cellList : Nat → List (Nat × Nat)
  | 0 => []
  | n + 1 => cellList n ++ [(n + 1, 0), (n + 1, 1), (n + 1, 2)]

/-- The nested scan loop of `find_resume_point`, threading
`(last_doc, last_log, last_round)`.  As in the source, the computed
`last_step`/`resume_step` have no effect on the returned value (the
`resume_step > 0` and `resume_step == 0` branches both return
`resume_round`), so they are not threaded. -/
def frpGo (cp : Nat → Nat → Option Checkpoint) (total : Nat) :
    List (Nat × Nat) → Str → Str → Nat → Nat × Str × Str
  | [], doc, log, _ => (total + 1, doc, log)
  | (r, i) :: rest, doc, log, lastRound =>
    match cp r i with
    | some c =>
      frpGo cp total rest c.doc
        (log ++ logHeader (capitalize (systems.getD i [])) r c.critique) r
    | none => if lastRound = 0 then (1, [], []) else (r, doc, log)

/-- `find_resume_point(output_dir, total_rounds)`. -/
def find_resume_point (cp : Nat → Nat → Option Checkpoint) (total : Nat) :
    Nat × Str × Str :=
  frpGo cp total (cellList total) [] [] 0

/-! ## Debate orchestrator (`run_debate`)

The three reviewer backends are abstracted as one function
`call : step index → current document → critique history → raw reply`
(the model ids are folded into it); the convergence judge as
`conv : round → doc before → doc after → round critiques → Option ConvResult`,
where `none` models `call_convergence_check` raising (which the source
catches and ignores).  Alongside the source's return tuple the embedding
records ghost traces: the executed `(round, step)` cells with the
critique-history argument each reviewer received, the rounds at which
the convergence judge was invoked, and the full log as it stood at the
start of each executed round. -/

structure CellExec where
  round : Nat
  step : Nat
  hist : Str
deriving DecidableEq

structure StepState where
  text : Str
  flog : Str
  rcrit : Str
  cells : List CellExec
deriving DecidableEq

structure ConvResult where
  should_stop : Bool
  confidence : Nat
  reason : Str
deriving DecidableEq

structure LoopState where
  text : Str
  flog : Str
  rcomp : Nat
  cells : List CellExec
  convs : List Nat
  rlogs : List (Nat × Str)
deriving DecidableEq

structure DebateResult where
  text : Str
  full_log : Str
  rounds_completed : Nat
  stop_reason : Option Str
  cells : List CellExec
  convs : List Nat
  rlogs : List (Nat × Str)
deriving DecidableEq

/-- The inner `for i, (name, func, model, style) in enumerate(steps)`
loop of one round.  The skip guard `r == start_round and i < start_step`
is kept verbatim from the source (where `start_step` is initialised to 0
and never reassigned). -/
def runStepsAux (call : Nat → Str → Str → Str)
    (r start_round start_step : Nat) (hist : Str) :
    List Nat → StepState → StepState
  | [], st => st
  | i :: rest, st =>
    if r = start_round ∧ i < start_step then
      runStepsAux call r start_round start_step hist rest st
    else
      let pr := parse_structured_output (call i st.text hist)
      let name := stepNames.getD i []
      runStepsAux call r start_round start_step hist rest
        { text := pr.1
          flog := st.flog ++ logHeader name r pr.2
          rcrit := st.rcrit ++ str "[" ++ name ++ str "]\n" ++ pr.2 ++ str "\n\n"
          cells := st.cells ++ [⟨r, i, hist⟩] }

/-- One round's reviewer pass: the critique history is compressed from
the log as it stands at the start of the round (`critique_for_round`),
`round_critiques` starts empty, and the three steps run in order. -/
def roundStep (call : Nat → Str → Str → Str)
    (r start_round start_step : Nat) (st : LoopState) : StepState :=
  runStepsAux call r start_round start_step
    (compress_critique_log st.flog 4000) [0, 1, 2] ⟨st.text, st.flog, [], st.cells⟩

/-- The `for r in range(start_round, rounds + 1)` loop of `run_debate`,
over the explicit list of remaining round numbers. -/
def roundLoopGo (call : Nat → Str → Str → Str)
    (conv : Nat → Str → Str → Str → Option ConvResult)
    (auto_stop : Bool) (min_rounds thr : Int) (rounds : Nat)
    (start_round start_step : Nat) :
    List Nat → LoopState → DebateResult
  | [], st => ⟨st.text, st.flog, st.rcomp, none, st.cells, st.convs, st.rlogs⟩
  | r :: rs, st =>
    if auto_stop = true ∧ (r : Int) ≥ min_rounds ∧ r < rounds then
      match conv r st.text (roundStep call r start_round start_step st).text
          (roundStep call r start_round start_step st).rcrit with
      | some cv =>
        if cv.should_stop = true ∧ (cv.confidence : Int) ≥ thr then
          ⟨(roundStep call r start_round start_step st).text,
            (roundStep call r start_round start_step st).flog, r,
            some cv.reason, (roundStep call r start_round start_step st).cells,
            st.convs ++ [r], st.rlogs ++ [(r, st.flog)]⟩
        else
          roundLoopGo call conv auto_stop min_rounds thr rounds start_round
            start_step rs
            ⟨(roundStep call r start_round start_step st).text,
              (roundStep call r start_round start_step st).flog, r,
              (roundStep call r start_round start_step st).cells,
              st.convs ++ [r], st.rlogs ++ [(r, st.flog)]⟩
      | none =>
        roundLoopGo call conv auto_stop min_rounds thr rounds start_round
          start_step rs
          ⟨(roundStep call r start_round start_step st).text,
            (roundStep call r start_round start_step st).flog, r,
            (roundStep call r start_round start_step st).cells,
            st.convs ++ [r], st.rlogs ++ [(r, st.flog)]⟩
    else
      roundLoopGo call conv auto_stop min_rounds thr rounds start_round
        start_step rs
        ⟨(roundStep call r start_round start_step st).text,
          (roundStep call r start_round start_step st).flog, r,
          (roundStep call r start_round start_step st).cells,
          st.convs, st.rlogs ++ [(r, st.flog)]⟩

/-- Round numbers of `range(start, rounds + 1)`. -/
def roundsList (start rounds : Nat) : List Nat :=
  List.range' start (rounds + 1 - start)

/-- The resume branch of `run_debate`: the `(text, full_log, start_round)`
triple actually used by the round loop.  The resumed values are adopted
only when the resumed document is non-empty (Python truthiness of
`resumed_text`). -/
def resumeInit (cp : Nat → Nat → Option Checkpoint) (input_text : Str)
    (rounds : Nat) (resume dirExists : Bool) : Str × Str × Nat :=
  if resume = true ∧ dirExists = true then
    let rp := find_resume_point cp rounds
    if rp.2.1 ≠ [] then (rp.2.1, rp.2.2, rp.1) else (input_text, [], 1)
  else (input_text, [], 1)

/-- `run_debate`.  `resume`/`dirExists` model the `--resume` flag and
`output_dir.exists()`; `min_rounds` and the confidence threshold are
integers as in the CLI.  As in the source, `start_step` stays at its
initial value 0: the resume branch sets only text, log and start round
(`find_resume_point` does not return the step index). -/
def run_debate (call : Nat → Str → Str → Str)
    (conv : Nat → Str → Str → Str → Option ConvResult)
    (cp : Nat → Nat → Option Checkpoint) (input_text : Str) (rounds : Nat)
    (resume dirExists auto_stop : Bool) (min_rounds thr : Int) : DebateResult :=
  roundLoopGo call conv auto_stop min_rounds thr rounds
    (resumeInit cp input_text rounds resume dirExists).2.2 0
    (roundsList (resumeInit cp input_text rounds resume dirExists).2.2 rounds)
    ⟨(resumeInit cp input_text rounds resume dirExists).1,
      (resumeInit cp input_text rounds resume dirExists).2.1, 0, [], [], []⟩

/-! Reference description of an uninterrupted run, used to state the
resume-scan and convergence claims: per-round state and per-cell
outputs. -/

/-- Document and full log produced by one round of the loop, starting
from state `st`. -/
def debateRound (call : Nat → Str → Str → Str) (r : Nat) (st : Str × Str) :
    Str × Str :=
  let s := runStepsAux call r 1 0 (compress_critique_log st.2 4000) [0, 1, 2]
    ⟨st.1, st.2, [], []⟩
  (s.text, s.flog)

/-- (document, full log) after `j` rounds of an uninterrupted,
non-resumed run on `input`. -/
def stateAfter (call : Nat → Str → Str → Str) (input : Str) : Nat → Str × Str
  | 0 => (input, [])
  | j + 1 => debateRound call (j + 1) (stateAfter call input j)

/-- The compressed critique history passed to every reviewer of round `r`. -/
def roundHist (call : Nat → Str → Str → Str) (input : Str) (r : Nat) : Str :=
  compress_critique_log (stateAfter call input (r - 1)).2 4000

/-- The current document just before cell `(r, i)` executes. -/
def docBeforeCell (call : Nat → Str → Str → Str) (input : Str) (r : Nat) :
    Nat → Str
  | 0 => (stateAfter call input (r - 1)).1
  | i + 1 =>
    (parse_structured_output
      (call i (docBeforeCell call input r i) (roundHist call input r))).1

/-- Document saved by cell `(r, i)` of the uninterrupted run. -/
def cellDoc (call : Nat → Str → Str → Str) (input : Str) (r i : Nat) : Str :=
  (parse_structured_output
    (call i (docBeforeCell call input r i) (roundHist call input r))).1

/-- Critique saved by cell `(r, i)` of the uninterrupted run. -/
def cellCrit (call : Nat → Str → Str → Str) (input : Str) (r i : Nat) : Str :=
  (parse_structured_output
    (call i (docBeforeCell call input r i) (roundHist call input r))).2

/-- One round's worth of log entries, with reviewer names given by
`nameOf`. -/
def roundLogN (nameOf : Nat → Str) (call : Nat → Str → Str → Str)
    (input : Str) (r : Nat) : Str :=
  logHeader (nameOf 0) r (cellCrit call input r 0) ++
    (logHeader (nameOf 1) r (cellCrit call input r 1) ++
      logHeader (nameOf 2) r (cellCrit call input r 2))

/-- Log accumulated over rounds `1..j`, with reviewer names given by
`nameOf`. -/
def accLog (nameOf : Nat → Str) (call : Nat → Str → Str → Str)
    (input : Str) : Nat → Str
  | 0 => []
  | j + 1 => accLog nameOf call input j ++ roundLogN nameOf call input (j + 1)

/-- Reviewer names as the run loop writes them into the log. -/
def runNameOf (i : Nat) : Str := stepNames.getD i []

/-- Reviewer names as the resume scan writes them into the log
(`s.capitalize()` over the lower-case directory names). -/
def capNameOf (i : Nat) : Str := capitalize (systems.getD i [])

/-- The two per-round trace properties of a run: every reviewer call of
round `r` received the compressed form of the log as it stood at the
start of round `r`, and all reviewer calls of one round received the
same history. -/
def cellsOK (cells : List CellExec) (rlogs : List (Nat × Str)) : Prop :=
  (∀ e ∈ cells, ∀ p ∈ rlogs, e.round = p.1 →
    e.hist = compress_critique_log p.2 4000) ∧
  (∀ e1 ∈ cells, ∀ e2 ∈ cells, e1.round = e2.round → e1.hist = e2.hist)

/-! Concrete instances used by counterexamples and witnesses. -/

/-- A backend that always replies `"X"` (no markers, so the parser falls
back to document `"X"` with the placeholder critique). -/
def call0 : Nat → Str → Str → Str := fun _ _ _ => str "X"

/-- A convergence judge whose call always raises (caught by the loop). -/
def conv0 : Nat → Str → Str → Str → Option ConvResult := fun _ _ _ _ => none

/-- A judge that always votes to continue. -/
def convCont : Nat → Str → Str → Str → Option ConvResult :=
  fun _ _ _ _ => some ⟨false, 0, []⟩

/-- A judge that votes STOP with confidence 80 after round 2. -/
def convStop2 : Nat → Str → Str → Str → Option ConvResult :=
  fun r _ _ _ => if r = 2 then some ⟨true, 80, str "konvergiert"⟩ else none

/-- A judge that always votes STOP with confidence 90. -/
def convStopNow : Nat → Str → Str → Str → Option ConvResult :=
  fun _ _ _ _ => some ⟨true, 90, str "sofort"⟩

/-- Checkpoint directory with exactly one completed cell: round 1,
reviewer 0 (claude). -/
def cpGap : Nat → Nat → Option Checkpoint := fun r i =>
  if r = 1 ∧ i = 0 then some ⟨str "D", str "C"⟩ else none

/-- Checkpoint directory holding exactly what a run driven by `call0`
saves for round 1 (three complete cells), and nothing for round 2. -/
def cpRound1 : Nat → Nat → Option Checkpoint := fun r i =>
  if r = 1 ∧ i < 3 then some ⟨str "X", noCritique⟩ else none

/-- Empty checkpoint directory. -/
def cpNone : Nat → Nat → Option Checkpoint := fun _ _ => none


/-! # Theorems -/

/-! ## Basic line lemmas for the compression claims -/

theorem splitNl_ne_nil (s : Str) : splitNl s ≠ [] := by
  cases s with
  | nil => simp [splitNl]
  | cons c rest =>
    by_cases h : c = '\n'
    · simp [splitNl, h]
    · simp only [splitNl, if_neg h]
      rcases hs : splitNl rest with _ | ⟨hd, tl⟩ <;> simp

theorem splitNl_exists_cons (s : Str) : ∃ hd tl, splitNl s = hd :: tl := by
  rcases hs : splitNl s with _ | ⟨hd, tl⟩
  · exact absurd hs (splitNl_ne_nil s)
  · exact ⟨hd, tl, rfl⟩

theorem splitNl_cons_ne (c : Char) (rest : Str) (h : ¬ c = '\n')
    (hd : Str) (tl : List Str) (hs : splitNl rest = hd :: tl) :
    splitNl (c :: rest) = (c :: hd) :: tl := by
  simp only [splitNl, if_neg h, hs]

theorem mem_splitNl_no_nl (s : Str) : ∀ l ∈ splitNl s, '\n' ∉ l := by
  induction s with
  | nil => intro l hl; simp [splitNl] at hl; simp [hl]
  | cons c rest ih =>
    intro l hl
    by_cases h : c = '\n'
    · rw [h] at hl
      simp only [splitNl, if_pos rfl] at hl
      rcases List.mem_cons.mp hl with rfl | hl
      · simp
      · exact ih l hl
    · obtain ⟨hd, tl, hs⟩ := splitNl_exists_cons rest
      rw [splitNl_cons_ne c rest h hd tl hs] at hl
      rcases List.mem_cons.mp hl with rfl | hl
      · intro hmem
        rcases List.mem_cons.mp hmem with hc | hmem
        · exact h hc.symm
        · exact ih hd (hs ▸ List.mem_cons_self hd tl) hmem
      · exact ih l (by rw [hs]; exact List.mem_cons_of_mem hd hl)

theorem splitNl_no_nl (x : Str) (hx : '\n' ∉ x) : splitNl x = [x] := by
  induction x with
  | nil => rfl
  | cons c rest ih =>
    have hc : ¬ c = '\n' := fun h => hx (h ▸ List.mem_cons_self c rest)
    have hr : '\n' ∉ rest := fun h => hx (List.mem_cons_of_mem c h)
    exact splitNl_cons_ne c rest hc rest [] (ih hr)

theorem splitNl_append_nl (x z : Str) (hx : '\n' ∉ x) :
    splitNl (x ++ '\n' :: z) = x :: splitNl z := by
  induction x with
  | nil => simp [splitNl]
  | cons c rest ih =>
    have hc : ¬ c = '\n' := fun h => hx (h ▸ List.mem_cons_self c rest)
    have hr : '\n' ∉ rest := fun h => hx (List.mem_cons_of_mem c h)
    obtain ⟨hd, tl, hs⟩ := splitNl_exists_cons z
    rw [List.cons_append,
      splitNl_cons_ne c (rest ++ '\n' :: z) hc rest (splitNl z) (ih hr)]

theorem splitNl_joinNl (xs : List Str) (hne : xs ≠ [])
    (hnl : ∀ l ∈ xs, '\n' ∉ l) : splitNl (joinNl xs) = xs := by
  induction xs with
  | nil => exact absurd rfl hne
  | cons x rest ih =>
    cases rest with
    | nil =>
      simp only [joinNl]
      exact splitNl_no_nl x (hnl x (List.mem_cons_self x []))
    | cons y t =>
      have hx : '\n' ∉ x := hnl x (List.mem_cons_self x (y :: t))
      simp only [joinNl, splitNl_append_nl x _ hx]
      rw [ih (by simp) (fun l hl => hnl l (List.mem_cons_of_mem x hl))]

theorem mem_compressParts (lines : List Str) (x : Str)
    (hx : x ∈ compressParts lines) : x ∈ lines := by
  simp only [compressParts] at hx
  rcases List.mem_append.mp hx with hx | hx
  · rcases List.mem_append.mp hx with hx | hx
    · exact (List.mem_filter.mp hx).1
    · exact (List.mem_filter.mp hx).1
  · exact (List.mem_filter.mp (List.take_subset 10 _ hx)).1

theorem dissens_mem_compressParts (lines : List Str) (l : Str)
    (hl : l ∈ lines) (hd : containsSub dissensMark l = true) :
    l ∈ compressParts lines := by
  simp only [compressParts]
  exact List.mem_append.mpr (Or.inl (List.mem_append.mpr
    (Or.inr (List.mem_filter.mpr ⟨hl, hd⟩))))

/-- Claim C1 (counterexample): `compress_critique_log` can drop a line
containing `[DISSENS]`.  With `max_chars = 10`, the single disagreement
line of this log is hard-truncated, so it is absent (as a full line) from
the output. -/
theorem c1_dissens_dropped_cex :
    containsSub dissensMark (str "[DISSENS] aaaaaaaaaaaa") = true ∧
    str "[DISSENS] aaaaaaaaaaaa" ∈ splitNl (str "[DISSENS] aaaaaaaaaaaa") ∧
    str "[DISSENS] aaaaaaaaaaaa" ∉
      splitNl (compress_critique_log (str "[DISSENS] aaaaaaaaaaaa") 10) := by
  decide

/-- Claim C1 (amended): every input line containing the disagreement
marker `[DISSENS]` survives `compress_critique_log`, provided no hard
truncation happens — that is, the input already fits in `max_chars`, or
the assembled compressed text (headers, disagreement lines, first ten
other bullets) fits in `max_chars`.  When the assembled text itself
exceeds `max_chars`, the final hard truncation can cut disagreement
lines (see the counterexample). -/
theorem c1_dissens_preserved_amended (full_log : Str) (max_chars : Nat)
    (l : Str) (hl : l ∈ splitNl full_log)
    (hd : containsSub dissensMark l = true)
    (hfit : full_log.length ≤ max_chars ∨
      (joinNl (compressParts (splitNl full_log))).length ≤ max_chars) :
    l ∈ splitNl (compress_critique_log full_log max_chars) := by
  by_cases hlen : full_log.length ≤ max_chars
  · simpa [compress_critique_log, hlen] using hl
  · have hc : (joinNl (compressParts (splitNl full_log))).length ≤ max_chars :=
      hfit.resolve_left hlen
    have hmem : l ∈ compressParts (splitNl full_log) :=
      dissens_mem_compressParts _ l hl hd
    have hne : compressParts (splitNl full_log) ≠ [] :=
      fun h => by simp [h] at hmem
    have hnl : ∀ x ∈ compressParts (splitNl full_log), '\n' ∉ x :=
      fun x hx => mem_splitNl_no_nl full_log x (mem_compressParts _ x hx)
    have hout : compress_critique_log full_log max_chars =
        joinNl (compressParts (splitNl full_log)) := by
      simp only [compress_critique_log, if_neg hlen]
      rw [if_neg (by omega)]
    rw [hout, splitNl_joinNl _ hne hnl]
    exact hmem

theorem c1_dissens_preserved_amended_witness :
    str "[DISSENS] x" ∈
      splitNl (compress_critique_log (str "[DISSENS] x") 100) :=
  c1_dissens_preserved_amended (str "[DISSENS] x") 100 (str "[DISSENS] x")
    (by decide) (by decide) (Or.inl (by decide))

/-- Claim C4: with `max_attempts = 3`, a call failing transiently on
attempts 0 and 1 and succeeding on attempt 2 returns the success value
after sleeping exactly 2 then 4 seconds; a non-transient failure is
re-raised immediately with no sleeping; and when all attempts fail
transiently the last error is re-raised (after the two sleeps). -/
theorem c4_retry_policy :
    (∀ (α : Type) (f : Nat → Except PyErr α) (e0 e1 : PyErr) (v : α),
      f 0 = .error e0 → f 1 = .error e1 → f 2 = .ok v →
      isTransient e0 = true → isTransient e1 = true →
      pyRetry f 3 = (some (.ok v), [2, 4])) ∧
    (∀ (α : Type) (f : Nat → Except PyErr α) (e0 : PyErr),
      f 0 = .error e0 → isTransient e0 = false →
      pyRetry f 3 = (some (.error e0), [])) ∧
    (∀ (α : Type) (f : Nat → Except PyErr α) (e0 e1 e2 : PyErr),
      f 0 = .error e0 → f 1 = .error e1 → f 2 = .error e2 →
      isTransient e0 = true → isTransient e1 = true → isTransient e2 = true →
      pyRetry f 3 = (some (.error e2), [2, 4])) := by
  refine ⟨?_, ?_, ?_⟩
  · intro α f e0 e1 v h0 h1 h2 ht0 ht1
    simp [pyRetry, retryFrom, h0, h1, h2, ht0, ht1]
  · intro α f e0 h0 ht0
    simp [pyRetry, retryFrom, h0, ht0]
  · intro α f e0 e1 e2 h0 h1 h2 ht0 ht1 ht2
    simp [pyRetry, retryFrom, h0, h1, h2, ht0, ht1, ht2]

theorem c4_retry_policy_witness :
    pyRetry (fun n => if n < 2 then (.error errTransient : Except PyErr Nat)
      else .ok 7) 3 = (some (.ok 7), [2, 4]) ∧
    pyRetry (fun _ => (.error errFatal : Except PyErr Nat)) 3 =
      (some (.error errFatal), []) ∧
    pyRetry (fun _ => (.error errTransient : Except PyErr Nat)) 3 =
      (some (.error errTransient), [2, 4]) :=
  ⟨c4_retry_policy.1 Nat _ errTransient errTransient 7 rfl rfl rfl
      (by decide) (by decide),
    c4_retry_policy.2.1 Nat _ errFatal rfl (by decide),
    c4_retry_policy.2.2 Nat _ errTransient errTransient errTransient
      rfl rfl rfl (by decide) (by decide) (by decide)⟩

theorem containsSub_cons (pat : Str) (c : Char) (s : Str) :
    containsSub pat (c :: s) = (pat.isPrefixOf (c :: s) || containsSub pat s) := by
  simp only [containsSub, findSub]
  by_cases h : pat.isPrefixOf (c :: s) <;> cases hf : findSub pat s <;>
    simp [h, hf]

theorem containsSub_of_tail (pat : Str) (c : Char) (s : Str)
    (h : containsSub pat s = true) : containsSub pat (c :: s) = true := by
  rw [containsSub_cons]
  simp [h]

theorem containsSub_of_drop (pat s : Str) (n : Nat)
    (h : containsSub pat (s.drop n) = true) : containsSub pat s = true := by
  induction s generalizing n with
  | nil => simpa using h
  | cons c rest ih =>
    cases n with
    | zero => exact h
    | succ m =>
      exact containsSub_of_tail pat c rest (ih m (by simpa using h))

theorem tryAt_some_contains (m2 rest g : Str) (h : tryAt m2 rest = some g) :
    containsSub m2 rest = true := by
  unfold tryAt at h
  split at h
  · exact absurd h (by simp)
  · rename_i p hl
    split at h
    · exact absurd h (by simp)
    · rename_i m hf
      exact containsSub_of_drop m2 rest (p + 1) (by simp [containsSub, hf])

theorem regexSearch1_some_imp (m1 m2 s g : Str)
    (h : regexSearch1 m1 m2 s = some g) :
    containsSub m1 s = true ∧ containsSub m2 s = true := by
  induction s with
  | nil => simp [regexSearch1] at h
  | cons c rest ih =>
    by_cases hp : m1.isPrefixOf (c :: rest)
    · rw [regexSearch1, if_pos hp] at h
      cases ht : tryAt m2 ((c :: rest).drop m1.length) with
      | none =>
        rw [ht] at h
        obtain ⟨h1, h2⟩ := ih h
        exact ⟨containsSub_of_tail m1 c rest h1, containsSub_of_tail m2 c rest h2⟩
      | some g2 =>
        refine ⟨by rw [containsSub_cons]; simp [hp], ?_⟩
        exact containsSub_of_drop m2 (c :: rest) m1.length
          (tryAt_some_contains m2 _ g2 ht)
    · rw [regexSearch1, if_neg hp] at h
      obtain ⟨h1, h2⟩ := ih h
      exact ⟨containsSub_of_tail m1 c rest h1, containsSub_of_tail m2 c rest h2⟩

/-- Claim C5: whenever either marker pair fails to match — in particular
whenever any of the three literal markers is absent from the reply —
`parse_structured_output` returns the whole raw reply stripped of
surrounding whitespace as the document, together with the fixed
placeholder critique (and, being a total function, never raises). -/
theorem c5_parse_fallback :
    (∀ raw : Str,
      regexSearch1 mDOKUMENT mKRITIK raw = none ∨
        regexSearch1 mKRITIK mENDE raw = none →
      parse_structured_output raw = (pyStrip raw, noCritique)) ∧
    (∀ raw : Str,
      containsSub mDOKUMENT raw = false ∨ containsSub mKRITIK raw = false ∨
        containsSub mENDE raw = false →
      parse_structured_output raw = (pyStrip raw, noCritique)) := by
  have base : ∀ raw : Str,
      regexSearch1 mDOKUMENT mKRITIK raw = none ∨
        regexSearch1 mKRITIK mENDE raw = none →
      parse_structured_output raw = (pyStrip raw, noCritique) := by
    intro raw h
    unfold parse_structured_output
    rcases h with h | h
    · rw [h]
    · rw [h]
      cases regexSearch1 mDOKUMENT mKRITIK raw <;> rfl
  refine ⟨base, ?_⟩
  intro raw h
  apply base
  rcases h with h | h | h
  · left
    cases hr : regexSearch1 mDOKUMENT mKRITIK raw with
    | none => rfl
    | some g =>
      have := (regexSearch1_some_imp _ _ _ _ hr).1
      rw [h] at this
      exact absurd this (by simp)
  · left
    cases hr : regexSearch1 mDOKUMENT mKRITIK raw with
    | none => rfl
    | some g =>
      have := (regexSearch1_some_imp _ _ _ _ hr).2
      rw [h] at this
      exact absurd this (by simp)
  · right
    cases hr : regexSearch1 mKRITIK mENDE raw with
    | none => rfl
    | some g =>
      have := (regexSearch1_some_imp _ _ _ _ hr).2
      rw [h] at this
      exact absurd this (by simp)

theorem c5_parse_fallback_witness :
    parse_structured_output (str "hello ") = (str "hello", noCritique) := by
  have := c5_parse_fallback.2 (str "hello ") (Or.inl (by decide))
  rw [this]
  decide

/-! ## Claim C6: well-formed replies -/

theorem findSub_drop (pat s : Str) (n p : Nat)
    (h : findSub pat s = some n) (hp : p ≤ n) :
    findSub pat (s.drop p) = some (n - p) := by
  induction p generalizing s n with
  | zero => simpa using h
  | succ q ih =>
    cases s with
    | nil =>
      rw [findSub] at h
      by_cases hpre : pat.isPrefixOf ([] : Str)
      · rw [if_pos hpre] at h
        have h0 : (0 : Nat) = n := Option.some.inj h
        omega
      · rw [if_neg hpre] at h; exact absurd h (by simp)
    | cons c rest =>
      rw [findSub] at h
      by_cases hpre : pat.isPrefixOf (c :: rest)
      · rw [if_pos hpre] at h
        have : n = 0 := (Option.some.inj h).symm
        omega
      · rw [if_neg hpre] at h
        cases hf : findSub pat rest with
        | none => rw [hf] at h; simp at h
        | some m =>
          rw [hf] at h
          simp only [Option.map_some'] at h
          have hm : m + 1 = n := Option.some.inj h
          rw [List.drop_succ_cons]
          rw [ih rest m hf (by omega)]
          congr 1
          omega

theorem takeWhile_append_nonspace (x z : Str) (c : Char)
    (hc : isSpace c = false) :
    (x ++ c :: z).takeWhile isSpace = x.takeWhile isSpace := by
  induction x with
  | nil => simp [List.takeWhile_cons, hc]
  | cons a rest ih =>
    by_cases ha : isSpace a = true <;>
      simp [List.takeWhile_cons, ha, ih]

theorem lastNl_lt_length (l : Str) (p : Nat) (h : lastNl l = some p) :
    p < l.length := by
  induction l generalizing p with
  | nil => simp [lastNl] at h
  | cons c rest ih =>
    rw [lastNl] at h
    cases hr : lastNl rest with
    | some q =>
      rw [hr] at h
      have : q + 1 = p := Option.some.inj h
      have := ih q hr
      simp only [List.length_cons]
      omega
    | none =>
      rw [hr] at h
      by_cases hc : c = '\n'
      · rw [if_pos hc] at h
        have : (0 : Nat) = p := Option.some.inj h
        simp only [List.length_cons]
        omega
      · rw [if_neg hc] at h; exact absurd h (by simp)

theorem lastNl_cons_nl (w : Str) :
    ∃ p, lastNl ('\n' :: w) = some p ∧ p ≤ w.length := by
  rw [lastNl]
  cases hw : lastNl w with
  | some q =>
    exact ⟨q + 1, rfl, lastNl_lt_length w q hw⟩
  | none => exact ⟨0, by simp, by simp⟩

theorem dropWhile_space_append (w x : Str)
    (hw : ∀ c ∈ w, isSpace c = true) :
    (w ++ x).dropWhile isSpace = x.dropWhile isSpace := by
  induction w with
  | nil => rfl
  | cons a rest ih =>
    have ha : isSpace a = true := hw a (List.mem_cons_self a rest)
    simp only [List.cons_append, List.dropWhile_cons, ha, if_pos]
    exact ih (fun c hc => hw c (List.mem_cons_of_mem a hc))

theorem pyStrip_space_append (w x : Str)
    (hw : ∀ c ∈ w, isSpace c = true) :
    pyStrip (w ++ x) = pyStrip x := by
  simp only [pyStrip, dropWhile_space_append w x hw]

theorem mem_take_takeWhile_space (x : Str) (q : Nat)
    (hq : q ≤ (x.takeWhile isSpace).length) :
    ∀ c ∈ x.take q, isSpace c = true := by
  intro c hc
  have hpre : x.takeWhile isSpace = x.take (x.takeWhile isSpace).length :=
    List.prefix_iff_eq_take.mp (List.takeWhile_prefix isSpace)
  have : x.take q = (x.takeWhile isSpace).take q := by
    rw [hpre, List.take_take]
    congr 1
    omega
  rw [this] at hc
  exact List.mem_takeWhile_imp (List.take_subset q _ hc)

/-- The pattern tail `\s*\n(.*?)m2` succeeds right after the marker of a
well-formed section: the group is the section body with some
all-whitespace prefix removed, so its stripped value is the stripped
body. -/
theorem tryAt_wellformed (c2 : Char) (m2t x z : Str)
    (hc2 : isSpace c2 = false)
    (hfind : findSub (c2 :: m2t) (x ++ ((c2 :: m2t) ++ z)) = some x.length) :
    ∃ q, tryAt (c2 :: m2t) ('\n' :: (x ++ ((c2 :: m2t) ++ z))) = some (x.drop q) ∧
      pyStrip (x.drop q) = pyStrip x := by
  have hbody : x ++ ((c2 :: m2t) ++ z) = x ++ c2 :: (m2t ++ z) := by
    simp
  have htw : ('\n' :: (x ++ ((c2 :: m2t) ++ z))).takeWhile isSpace =
      '\n' :: x.takeWhile isSpace := by
    rw [List.takeWhile_cons]
    have : isSpace '\n' = true := by decide
    rw [if_pos this, hbody, takeWhile_append_nonspace x (m2t ++ z) c2 hc2]
  obtain ⟨q, hq, hqle⟩ := lastNl_cons_nl (x.takeWhile isSpace)
  have hqx : q ≤ x.length :=
    le_trans hqle (List.takeWhile_prefix isSpace).length_le
  have hdrop : ('\n' :: (x ++ ((c2 :: m2t) ++ z))).drop (q + 1) =
      (x ++ ((c2 :: m2t) ++ z)).drop q := List.drop_succ_cons
  have hfs : findSub (c2 :: m2t) ((x ++ ((c2 :: m2t) ++ z)).drop q) =
      some (x.length - q) := findSub_drop _ _ x.length q hfind hqx
  have htail : (x ++ ((c2 :: m2t) ++ z)).drop q = x.drop q ++ ((c2 :: m2t) ++ z) :=
    List.drop_append_of_le_length hqx
  have hgroup : ((x ++ ((c2 :: m2t) ++ z)).drop q).take (x.length - q) = x.drop q := by
    rw [htail]
    exact List.take_left' (by rw [List.length_drop])
  refine ⟨q, ?_, ?_⟩
  · simp only [tryAt, htw, hq, hdrop, hfs, hgroup]
  · have hx : x = x.take q ++ x.drop q := (List.take_append_drop q x).symm
    have hsp : ∀ c ∈ x.take q, isSpace c = true :=
      mem_take_takeWhile_space x q hqle
    calc pyStrip (x.drop q) = pyStrip (x.take q ++ x.drop q) :=
          (pyStrip_space_append _ _ hsp).symm
      _ = pyStrip x := by rw [← hx]

/-- `re.search` matches at the first occurrence of the leading literal
when the rest of the pattern succeeds there. -/
theorem regexSearch1_of_findSub (m1 m2 s g : Str) (n : Nat)
    (h1 : findSub m1 s = some n)
    (h2 : tryAt m2 ((s.drop n).drop m1.length) = some g) :
    regexSearch1 m1 m2 s = some g := by
  induction s generalizing n with
  | nil =>
    simp only [List.drop_nil] at h2
    simp [tryAt, lastNl] at h2
  | cons c rest ih =>
    by_cases hp : m1.isPrefixOf (c :: rest)
    · rw [findSub, if_pos hp] at h1
      have h0 : n = 0 := (Option.some.inj h1).symm
      subst h0
      rw [List.drop_zero] at h2
      rw [regexSearch1, if_pos hp, h2]
    · rw [findSub, if_neg hp] at h1
      cases hf : findSub m1 rest with
      | none => rw [hf] at h1; simp at h1
      | some k =>
        rw [hf] at h1
        simp only [Option.map_some'] at h1
        have hk : k + 1 = n := Option.some.inj h1
        rw [regexSearch1, if_neg hp]
        apply ih k hf
        rw [← hk] at h2
        rwa [List.drop_succ_cons] at h2

/-- Claim C6: on a reply containing the well-formed newline-delimited
markers (the hypotheses pin the first occurrence of each marker to its
canonical position), `parse_structured_output` returns exactly the text
strictly between `---DOKUMENT---` and `---KRITIKPUNKTE---` trimmed as
the document and the text strictly between `---KRITIKPUNKTE---` and
`---ENDE---` trimmed as the critique. -/
theorem c6_parse_wellformed (pre d k post : Str)
    (h1 : findSub mDOKUMENT (wellFormedRaw pre d k post) = some pre.length)
    (h2 : findSub mKRITIK
      (d ++ (mKRITIK ++ '\n' :: (k ++ (mENDE ++ post)))) = some d.length)
    (h3 : findSub mKRITIK (wellFormedRaw pre d k post) =
      some (pre.length + mDOKUMENT.length + (1 + d.length)))
    (h4 : findSub mENDE (k ++ (mENDE ++ post)) = some k.length) :
    parse_structured_output (wellFormedRaw pre d k post) =
      (pyStrip d, pyStrip k) := by
  have hKshape : mKRITIK = '-' :: (str "--KRITIKPUNKTE---") := by decide
  have hEshape : mENDE = '-' :: (str "--ENDE---") := by decide
  -- document side
  have hdropDoc : ((wellFormedRaw pre d k post).drop pre.length).drop mDOKUMENT.length
      = '\n' :: (d ++ (mKRITIK ++ '\n' :: (k ++ (mENDE ++ post)))) := by
    rw [wellFormedRaw, List.drop_left, List.drop_left]
  obtain ⟨q1, hq1, hs1⟩ := tryAt_wellformed '-' (str "--KRITIKPUNKTE---") d
    ('\n' :: (k ++ (mENDE ++ post))) (by decide) (by rw [← hKshape]; exact h2)
  have hdoc : regexSearch1 mDOKUMENT mKRITIK (wellFormedRaw pre d k post) =
      some (d.drop q1) := by
    apply regexSearch1_of_findSub _ _ _ _ pre.length h1
    rw [hdropDoc, hKshape]
    exact hq1
  -- critique side
  have hAlen : (pre ++ (mDOKUMENT ++ ('\n' :: d))).length =
      pre.length + mDOKUMENT.length + (1 + d.length) := by
    simp only [List.length_append, List.length_cons]
    omega
  have hassoc : wellFormedRaw pre d k post =
      (pre ++ (mDOKUMENT ++ ('\n' :: d))) ++
        (mKRITIK ++ ('\n' :: (k ++ (mENDE ++ post)))) := by
    simp [wellFormedRaw]
  have hdropCrit : ((wellFormedRaw pre d k post).drop
        (pre.length + mDOKUMENT.length + (1 + d.length))).drop mKRITIK.length
      = '\n' :: (k ++ (mENDE ++ post)) := by
    rw [hassoc, List.drop_left' hAlen, List.drop_left]
  obtain ⟨q2, hq2, hs2⟩ := tryAt_wellformed '-' (str "--ENDE---") k post
    (by decide) (by rw [← hEshape]; exact h4)
  have hcrit : regexSearch1 mKRITIK mENDE (wellFormedRaw pre d k post) =
      some (k.drop q2) := by
    apply regexSearch1_of_findSub _ _ _ _ _ h3
    rw [hdropCrit, hEshape]
    exact hq2
  simp only [parse_structured_output, hdoc, hcrit, hs1, hs2]

theorem c6_parse_wellformed_witness :
    parse_structured_output
      (wellFormedRaw (str "Gut. ") (str " Neuer Text ")
        (str "- [DISSENS] Punkt") (str "\nRest")) =
      (str "Neuer Text", str "- [DISSENS] Punkt") := by
  have h := c6_parse_wellformed (str "Gut. ") (str " Neuer Text ")
    (str "- [DISSENS] Punkt") (str "\nRest")
    (by decide) (by decide) (by decide) (by decide)
  rw [h]
  decide

/-! ## Claim C2: resuming mid-round -/

/-- Claim C2 (code bug, evaluated at the failing input): with checkpoints
for round 1 reviewer 0 present and reviewer 1 missing (gap at `j = 1`),
the resume scan reports round 1 and the saved document, but the restarted
run executes all three reviewers of round 1 — including the completed
reviewer 0 — because `run_debate` leaves `start_step` at 0
(`find_resume_point` computes `resume_step` but never returns it, so the
`i < start_step` skip in the loop is dead code). -/
theorem c2_resume_reruns_completed_reviewer :
    (cpGap 1 0).isSome = true ∧
    (find_resume_point cpGap 1).1 = 1 ∧
    (find_resume_point cpGap 1).2.1 = str "D" ∧
    ((run_debate call0 conv0 cpGap (str "T") 1 true true false 0 0).cells.map
      (fun e => (e.round, e.step))) = [(1, 0), (1, 1), (1, 2)] := by
  decide

/-! ## Claim C8: convergence-check window -/

theorem roundLoopGo_convs_spec (call : Nat → Str → Str → Str)
    (conv : Nat → Str → Str → Str → Option ConvResult)
    (auto : Bool) (minR thr : Int) (rounds sr ss : Nat) :
    ∀ (rs : List Nat) (st : LoopState),
      (∀ r ∈ st.convs, auto = true ∧ (r : Int) ≥ minR ∧ r < rounds) →
      ∀ r ∈ (roundLoopGo call conv auto minR thr rounds sr ss rs st).convs,
        auto = true ∧ (r : Int) ≥ minR ∧ r < rounds := by
  intro rs
  induction rs with
  | nil => intro st hst r hr; exact hst r hr
  | cons r0 rs ih =>
    intro st hst r hr
    rw [roundLoopGo] at hr
    by_cases hg : auto = true ∧ (r0 : Int) ≥ minR ∧ r0 < rounds
    · rw [if_pos hg] at hr
      cases hc : conv r0 st.text (roundStep call r0 sr ss st).text
          (roundStep call r0 sr ss st).rcrit with
      | some cv =>
        simp only [hc] at hr
        by_cases hs : cv.should_stop = true ∧ (cv.confidence : Int) ≥ thr
        · rw [if_pos hs] at hr
          replace hr : r ∈ st.convs ++ [r0] := hr
          rcases List.mem_append.mp hr with h | h
          · exact hst r h
          · rw [List.mem_singleton.mp h]; exact hg
        · rw [if_neg hs] at hr
          refine ih _ ?_ r hr
          intro x hx
          replace hx : x ∈ st.convs ++ [r0] := hx
          rcases List.mem_append.mp hx with h | h
          · exact hst x h
          · rw [List.mem_singleton.mp h]; exact hg
      | none =>
        simp only [hc] at hr
        refine ih _ ?_ r hr
        intro x hx
        replace hx : x ∈ st.convs ++ [r0] := hx
        rcases List.mem_append.mp hx with h | h
        · exact hst x h
        · rw [List.mem_singleton.mp h]; exact hg
    · rw [if_neg hg] at hr
      refine ih _ ?_ r hr
      exact hst

/-- Claim C8: in any run, a convergence check after round `r` happens only
when auto-stop is enabled, `r ≥ min_rounds` and `r < max_rounds`; in
particular the judge is never invoked before `min_rounds` completed
rounds and never after the final round. -/
theorem c8_convergence_window (call : Nat → Str → Str → Str)
    (conv : Nat → Str → Str → Str → Option ConvResult)
    (cp : Nat → Nat → Option Checkpoint) (input : Str) (rounds : Nat)
    (resume dirE auto : Bool) (minR thr : Int) (r : Nat)
    (hr : r ∈ (run_debate call conv cp input rounds resume dirE auto
      minR thr).convs) :
    auto = true ∧ (r : Int) ≥ minR ∧ r < rounds :=
  roundLoopGo_convs_spec call conv auto minR thr rounds _ 0 _ _
    (fun x hx => absurd hx (List.not_mem_nil x)) r hr

theorem c8_convergence_window_witness :
    true = true ∧ ((1 : Nat) : Int) ≥ 1 ∧ (1 : Nat) < 2 :=
  c8_convergence_window call0 convCont cpNone (str "T") 2 false false true
    1 99 1 (by decide)

/-! ## Claim C9: min_rounds clamping -/

theorem cellList_fst_pos : ∀ (n : Nat), ∀ x ∈ cellList n, 1 ≤ x.1 := by
  intro n
  induction n with
  | zero => intro x hx; simp [cellList] at hx
  | succ m ih =>
    intro x hx
    rw [cellList] at hx
    rcases List.mem_append.mp hx with hx | hx
    · exact ih x hx
    · have : x = (m + 1, 0) ∨ x = (m + 1, 1) ∨ x = (m + 1, 2) := by
        simpa using hx
      rcases this with rfl | rfl | rfl <;> simp

theorem frpGo_fst_pos (cp : Nat → Nat → Option Checkpoint) (total : Nat) :
    ∀ (cs : List (Nat × Nat)) (doc log : Str) (lastR : Nat),
      (∀ x ∈ cs, 1 ≤ x.1) → 1 ≤ (frpGo cp total cs doc log lastR).1 := by
  intro cs
  induction cs with
  | nil => intro doc log lastR _; simp [frpGo]
  | cons x rest ih =>
    intro doc log lastR hcs
    obtain ⟨r, i⟩ := x
    rw [frpGo]
    cases hc : cp r i with
    | some c => exact ih _ _ _ (fun y hy => hcs y (List.mem_cons_of_mem _ hy))
    | none =>
      by_cases hl : lastR = 0
      · simp [hl]
      · simp only [if_neg hl]
        exact hcs (r, i) (List.mem_cons_self _ _)

theorem resumeInit_start_pos (cp : Nat → Nat → Option Checkpoint)
    (input : Str) (rounds : Nat) (resume dirE : Bool) :
    1 ≤ (resumeInit cp input rounds resume dirE).2.2 := by
  rw [resumeInit]
  by_cases hb : resume = true ∧ dirE = true
  · rw [if_pos hb]
    by_cases hr : (find_resume_point cp rounds).2.1 ≠ []
    · simp only [if_pos hr]
      exact frpGo_fst_pos cp rounds _ _ _ _ (cellList_fst_pos rounds)
    · simp [hr]
  · simp [hb]

theorem roundLoopGo_min_clamp (call : Nat → Str → Str → Str)
    (conv : Nat → Str → Str → Str → Option ConvResult) (auto : Bool)
    (m thr : Int) (rounds sr ss : Nat) :
    ∀ (rs : List Nat) (st : LoopState), (∀ r ∈ rs, 1 ≤ r) →
      roundLoopGo call conv auto m thr rounds sr ss rs st =
        roundLoopGo call conv auto (max 1 (min m (rounds : Int))) thr rounds
          sr ss rs st := by
  intro rs
  induction rs with
  | nil => intro st _; rfl
  | cons r rs ih =>
    intro st hrs
    have hr1 : 1 ≤ r := hrs r (List.mem_cons_self r rs)
    have htail : ∀ x ∈ rs, 1 ≤ x := fun x hx => hrs x (List.mem_cons_of_mem r hx)
    have hiff : ((r : Int) ≥ m ∧ r < rounds) ↔
        ((r : Int) ≥ max 1 (min m (rounds : Int)) ∧ r < rounds) := by
      omega
    rw [roundLoopGo, roundLoopGo]
    by_cases hg : auto = true ∧ (r : Int) ≥ m ∧ r < rounds
    · have hg2 : auto = true ∧ (r : Int) ≥ max 1 (min m (rounds : Int)) ∧
          r < rounds := ⟨hg.1, hiff.mp hg.2⟩
      rw [if_pos hg, if_pos hg2]
      cases hc : conv r st.text (roundStep call r sr ss st).text
          (roundStep call r sr ss st).rcrit with
      | some cv =>
        simp only [hc]
        by_cases hs : cv.should_stop = true ∧ (cv.confidence : Int) ≥ thr
        · rw [if_pos hs, if_pos hs]
        · rw [if_neg hs, if_neg hs]; exact ih _ htail
      | none => simp only [hc]; exact ih _ htail
    · have hg2 : ¬(auto = true ∧ (r : Int) ≥ max 1 (min m (rounds : Int)) ∧
          r < rounds) := fun h => hg ⟨h.1, hiff.mpr h.2⟩
      rw [if_neg hg, if_neg hg2]
      exact ih _ htail

/-- Claim C9: `run_debate` behaves identically when `min_rounds` is
replaced by its clamp `max 1 (min min_rounds max_rounds)` — same rounds,
same convergence checks, same traces, same return value. -/
theorem c9_min_rounds_clamped (call : Nat → Str → Str → Str)
    (conv : Nat → Str → Str → Str → Option ConvResult)
    (cp : Nat → Nat → Option Checkpoint) (input : Str) (rounds : Nat)
    (resume dirE auto : Bool) (m thr : Int) :
    run_debate call conv cp input rounds resume dirE auto m thr =
      run_debate call conv cp input rounds resume dirE auto
        (max 1 (min m (rounds : Int))) thr := by
  rw [run_debate, run_debate]
  apply roundLoopGo_min_clamp
  intro r hr
  have h1 := resumeInit_start_pos cp input rounds resume dirE
  have h2 := List.mem_range'_1.mp hr
  omega

/-! ## Claim C10: one critique history per round -/

theorem runStepsAux_cells_spec (call : Nat → Str → Str → Str)
    (r sr ss : Nat) (hist : Str) :
    ∀ (l : List Nat) (st : StepState),
      ∀ e ∈ (runStepsAux call r sr ss hist l st).cells,
        e ∈ st.cells ∨ (e.round = r ∧ e.hist = hist) := by
  intro l
  induction l with
  | nil => intro st e he; exact Or.inl he
  | cons i rest ih =>
    intro st e he
    rw [runStepsAux] at he
    by_cases hskip : r = sr ∧ i < ss
    · rw [if_pos hskip] at he; exact ih st e he
    · rw [if_neg hskip] at he
      rcases ih _ e he with hmem | hnew
      · replace hmem : e ∈ st.cells ++ [⟨r, i, hist⟩] := hmem
        rcases List.mem_append.mp hmem with h | h
        · exact Or.inl h
        · right
          rw [List.mem_singleton.mp h]
          exact ⟨rfl, rfl⟩
      · exact Or.inr hnew

theorem roundLoopGo_hist_spec (call : Nat → Str → Str → Str)
    (conv : Nat → Str → Str → Str → Option ConvResult) (auto : Bool)
    (m thr : Int) (rounds sr ss : Nat) :
    ∀ (n s : Nat) (st : LoopState),
      (∀ e ∈ st.cells, e.round < s) →
      (∀ p ∈ st.rlogs, p.1 < s) →
      cellsOK st.cells st.rlogs →
      cellsOK
        (roundLoopGo call conv auto m thr rounds sr ss (List.range' s n) st).cells
        (roundLoopGo call conv auto m thr rounds sr ss (List.range' s n) st).rlogs := by
  intro n
  induction n with
  | zero => intro s st _ _ hok; exact hok
  | succ k ih =>
    intro s st hc hp hok
    rw [List.range'_succ, roundLoopGo]
    have hcells2 : ∀ e ∈ (roundStep call s sr ss st).cells,
        e ∈ st.cells ∨ (e.round = s ∧ e.hist = compress_critique_log st.flog 4000) :=
      fun e he => runStepsAux_cells_spec call s sr ss _ [0, 1, 2] _ e he
    have hb1 : ∀ e ∈ (roundStep call s sr ss st).cells, e.round < s + 1 := by
      intro e he
      rcases hcells2 e he with hold | hnew
      · exact Nat.lt_succ_of_lt (hc e hold)
      · rw [hnew.1]; exact Nat.lt_succ_self s
    have hb2 : ∀ p ∈ st.rlogs ++ [(s, st.flog)], p.1 < s + 1 := by
      intro p hpm
      rcases List.mem_append.mp hpm with h | h
      · exact Nat.lt_succ_of_lt (hp p h)
      · rw [List.mem_singleton.mp h]; exact Nat.lt_succ_self s
    have hok2 : cellsOK (roundStep call s sr ss st).cells
        (st.rlogs ++ [(s, st.flog)]) := by
      constructor
      · intro e he p hpm heq
        rcases hcells2 e he with hold | hnew
        · rcases List.mem_append.mp hpm with hpo | hpn
          · exact hok.1 e hold p hpo heq
          · exfalso
            have hps : p = (s, st.flog) := List.mem_singleton.mp hpn
            have : e.round < s := hc e hold
            rw [heq, hps] at this
            exact Nat.lt_irrefl s this
        · rcases List.mem_append.mp hpm with hpo | hpn
          · exfalso
            have : p.1 < s := hp p hpo
            rw [← heq, hnew.1] at this
            exact Nat.lt_irrefl s this
          · have hps : p = (s, st.flog) := List.mem_singleton.mp hpn
            rw [hps]
            exact hnew.2
      · intro e1 h1 e2 h2 heq
        rcases hcells2 e1 h1 with ho1 | hn1 <;> rcases hcells2 e2 h2 with ho2 | hn2
        · exact hok.2 e1 ho1 e2 ho2 heq
        · exfalso
          have : e1.round < s := hc e1 ho1
          rw [heq, hn2.1] at this
          exact Nat.lt_irrefl s this
        · exfalso
          have : e2.round < s := hc e2 ho2
          rw [← heq, hn1.1] at this
          exact Nat.lt_irrefl s this
        · rw [hn1.2, hn2.2]
    by_cases hg : auto = true ∧ (s : Int) ≥ m ∧ s < rounds
    · rw [if_pos hg]
      cases hcv : conv s st.text (roundStep call s sr ss st).text
          (roundStep call s sr ss st).rcrit with
      | some cv =>
        simp only [hcv]
        by_cases hs : cv.should_stop = true ∧ (cv.confidence : Int) ≥ thr
        · rw [if_pos hs]
          exact hok2
        · rw [if_neg hs]
          exact ih (s + 1) _ hb1 hb2 hok2
      | none =>
        simp only [hcv]
        exact ih (s + 1) _ hb1 hb2 hok2
    · rw [if_neg hg]
      exact ih (s + 1) _ hb1 hb2 hok2

/-- Claim C10: within any round `r` of any run, every reviewer receives
as critique history exactly `compress_critique_log` of the full log as it
stood at the start of round `r` (recorded in the `rlogs` trace), and in
particular all reviewers of one round receive the same history — a
reviewer never sees the critiques produced earlier in its own round. -/
theorem c10_same_history_per_round (call : Nat → Str → Str → Str)
    (conv : Nat → Str → Str → Str → Option ConvResult)
    (cp : Nat → Nat → Option Checkpoint) (input : Str) (rounds : Nat)
    (resume dirE auto : Bool) (m thr : Int) :
    (∀ e ∈ (run_debate call conv cp input rounds resume dirE auto m thr).cells,
      ∀ p ∈ (run_debate call conv cp input rounds resume dirE auto m thr).rlogs,
        e.round = p.1 → e.hist = compress_critique_log p.2 4000) ∧
    (∀ e1 ∈ (run_debate call conv cp input rounds resume dirE auto m thr).cells,
      ∀ e2 ∈ (run_debate call conv cp input rounds resume dirE auto m thr).cells,
        e1.round = e2.round → e1.hist = e2.hist) := by
  rw [run_debate]
  exact roundLoopGo_hist_spec call conv auto m thr rounds _ 0
    (rounds + 1 - (resumeInit cp input rounds resume dirE).2.2)
    (resumeInit cp input rounds resume dirE).2.2 _
    (fun e he => absurd he (List.not_mem_nil e))
    (fun p hp => absurd hp (List.not_mem_nil p))
    ⟨fun e he => absurd he (List.not_mem_nil e),
      fun e he => absurd he (List.not_mem_nil e)⟩

theorem c10_same_history_per_round_witness :
    (⟨1, 1, []⟩ : CellExec) ∈
      (run_debate call0 conv0 cpNone (str "T") 1 false false false 0 0).cells ∧
    (1, ([] : Str)) ∈
      (run_debate call0 conv0 cpNone (str "T") 1 false false false 0 0).rlogs ∧
    (⟨1, 1, []⟩ : CellExec).hist = compress_critique_log ([] : Str) 4000 :=
  ⟨by decide, by decide,
    (c10_same_history_per_round call0 conv0 cpNone (str "T") 1 false false
        false 0 0).1 ⟨1, 1, []⟩ (by decide) (1, []) (by decide) rfl⟩

/-! ## Claim C3: convergence stop -/

theorem runStepsAux_text_flog (call : Nat → Str → Str → Str)
    (r sr ss : Nat) (hist : Str) :
    ∀ (l : List Nat) (t f rc1 rc2 : Str) (c1 c2 : List CellExec),
      (runStepsAux call r sr ss hist l ⟨t, f, rc1, c1⟩).text =
        (runStepsAux call r sr ss hist l ⟨t, f, rc2, c2⟩).text ∧
      (runStepsAux call r sr ss hist l ⟨t, f, rc1, c1⟩).flog =
        (runStepsAux call r sr ss hist l ⟨t, f, rc2, c2⟩).flog := by
  intro l
  induction l with
  | nil => intro t f rc1 rc2 c1 c2; exact ⟨rfl, rfl⟩
  | cons i rest ih =>
    intro t f rc1 rc2 c1 c2
    simp only [runStepsAux]
    by_cases hskip : r = sr ∧ i < ss
    · simp only [if_pos hskip]
      exact ih t f rc1 rc2 c1 c2
    · simp only [if_neg hskip]
      exact ih _ _ _ _ _ _

theorem roundLoopGo_no_stop (call : Nat → Str → Str → Str)
    (conv : Nat → Str → Str → Str → Option ConvResult) (auto : Bool)
    (m thr : Int) (rounds sr ss : Nat)
    (hconv : ∀ r db da rc cv, conv r db da rc = some cv →
      ¬(cv.should_stop = true ∧ (cv.confidence : Int) ≥ thr)) :
    ∀ (rs : List Nat) (st : LoopState),
      (roundLoopGo call conv auto m thr rounds sr ss rs st).stop_reason = none := by
  intro rs
  induction rs with
  | nil => intro st; rfl
  | cons r rs ih =>
    intro st
    rw [roundLoopGo]
    by_cases hg : auto = true ∧ (r : Int) ≥ m ∧ r < rounds
    · rw [if_pos hg]
      cases hc : conv r st.text (roundStep call r sr ss st).text
          (roundStep call r sr ss st).rcrit with
      | some cv =>
        simp only [hc]
        rw [if_neg (hconv r _ _ _ cv hc)]
        exact ih _
      | none => simp only [hc]; exact ih _
    · rw [if_neg hg]; exact ih _

/-- Claim C3: with `max_rounds = 3`, `min_rounds = 2`, threshold 70 and
auto-stop on, a judge that reports STOP with confidence 80 after round 2
makes `run_debate` return immediately with `rounds_completed = 2`, the
judge's reason, and round 2's final document and log (first conjunct);
in general, whenever the check after round `r` fires with `should_stop`
and confidence at least the threshold, the loop returns the current
document, the full log, `r` and the reason (second conjunct); and when
no invocation ever satisfies the stop condition, `run_debate` finishes
with `stop_reason = none` (third conjunct). -/
theorem c3_convergence_stop :
    (∀ (call : Nat → Str → Str → Str)
        (conv : Nat → Str → Str → Str → Option ConvResult)
        (cp : Nat → Nat → Option Checkpoint) (input reason : Str),
      (∀ db da rc, conv 2 db da rc = some ⟨true, 80, reason⟩) →
      (run_debate call conv cp input 3 false false true 2 70).rounds_completed
          = 2 ∧
        (run_debate call conv cp input 3 false false true 2 70).stop_reason
          = some reason ∧
        (run_debate call conv cp input 3 false false true 2 70).text
          = (stateAfter call input 2).1 ∧
        (run_debate call conv cp input 3 false false true 2 70).full_log
          = (stateAfter call input 2).2) ∧
    (∀ (call : Nat → Str → Str → Str)
        (conv : Nat → Str → Str → Str → Option ConvResult) (m thr : Int)
        (rounds sr ss r : Nat) (rs : List Nat) (st : LoopState)
        (cv : ConvResult),
      (r : Int) ≥ m → r < rounds →
      conv r st.text (roundStep call r sr ss st).text
        (roundStep call r sr ss st).rcrit = some cv →
      cv.should_stop = true → (cv.confidence : Int) ≥ thr →
      roundLoopGo call conv true m thr rounds sr ss (r :: rs) st =
        ⟨(roundStep call r sr ss st).text, (roundStep call r sr ss st).flog,
          r, some cv.reason, (roundStep call r sr ss st).cells,
          st.convs ++ [r], st.rlogs ++ [(r, st.flog)]⟩) ∧
    (∀ (call : Nat → Str → Str → Str)
        (conv : Nat → Str → Str → Str → Option ConvResult)
        (cp : Nat → Nat → Option Checkpoint) (input : Str) (rounds : Nat)
        (resume dirE auto : Bool) (m thr : Int),
      (∀ r db da rc cv, conv r db da rc = some cv →
        ¬(cv.should_stop = true ∧ (cv.confidence : Int) ≥ thr)) →
      (run_debate call conv cp input rounds resume dirE auto m thr).stop_reason
        = none) := by
  refine ⟨?_, ?_, ?_⟩
  · intro call conv cp input reason h2
    have e1 : run_debate call conv cp input 3 false false true 2 70 =
        roundLoopGo call conv true 2 70 3 1 0 [1, 2, 3]
          ⟨input, [], 0, [], [], []⟩ := rfl
    have hg1 : ¬(true = true ∧ ((1 : Nat) : Int) ≥ 2 ∧ (1 : Nat) < 3) := by
      decide
    have e2 : roundLoopGo call conv true 2 70 3 1 0 [1, 2, 3]
        ⟨input, [], 0, [], [], []⟩ =
        roundLoopGo call conv true 2 70 3 1 0 [2, 3]
          ⟨(roundStep call 1 1 0 ⟨input, [], 0, [], [], []⟩).text,
            (roundStep call 1 1 0 ⟨input, [], 0, [], [], []⟩).flog, 1,
            (roundStep call 1 1 0 ⟨input, [], 0, [], [], []⟩).cells,
            [], [(1, [])]⟩ := by
      rw [roundLoopGo, if_neg hg1]
      rfl
    have hg2 : true = true ∧ ((2 : Nat) : Int) ≥ 2 ∧ (2 : Nat) < 3 := by decide
    have e3 : roundLoopGo call conv true 2 70 3 1 0 [2, 3]
        ⟨(roundStep call 1 1 0 ⟨input, [], 0, [], [], []⟩).text,
          (roundStep call 1 1 0 ⟨input, [], 0, [], [], []⟩).flog, 1,
          (roundStep call 1 1 0 ⟨input, [], 0, [], [], []⟩).cells,
          [], [(1, [])]⟩ =
        ⟨(roundStep call 2 1 0
            ⟨(roundStep call 1 1 0 ⟨input, [], 0, [], [], []⟩).text,
              (roundStep call 1 1 0 ⟨input, [], 0, [], [], []⟩).flog, 1,
              (roundStep call 1 1 0 ⟨input, [], 0, [], [], []⟩).cells,
              [], [(1, [])]⟩).text,
          (roundStep call 2 1 0
            ⟨(roundStep call 1 1 0 ⟨input, [], 0, [], [], []⟩).text,
              (roundStep call 1 1 0 ⟨input, [], 0, [], [], []⟩).flog, 1,
              (roundStep call 1 1 0 ⟨input, [], 0, [], [], []⟩).cells,
              [], [(1, [])]⟩).flog,
          2, some reason,
          (roundStep call 2 1 0
            ⟨(roundStep call 1 1 0 ⟨input, [], 0, [], [], []⟩).text,
              (roundStep call 1 1 0 ⟨input, [], 0, [], [], []⟩).flog, 1,
              (roundStep call 1 1 0 ⟨input, [], 0, [], [], []⟩).cells,
              [], [(1, [])]⟩).cells,
          [2], [(1, []), (2, (roundStep call 1 1 0
            ⟨input, [], 0, [], [], []⟩).flog)]⟩ := by
      rw [roundLoopGo, if_pos hg2]
      simp only [h2]
      rw [if_pos (And.intro trivial (by decide : ((80 : Nat) : Int) ≥ 70))]
      rfl
    have hrw : run_debate call conv cp input 3 false false true 2 70 =
        _ := e1.trans (e2.trans e3)
    refine ⟨by rw [hrw], by rw [hrw], ?_, ?_⟩
    · rw [hrw]
      exact (runStepsAux_text_flog call 2 1 0 _ [0, 1, 2] _ _ [] []
        (roundStep call 1 1 0 ⟨input, [], 0, [], [], []⟩).cells []).1
    · rw [hrw]
      exact (runStepsAux_text_flog call 2 1 0 _ [0, 1, 2] _ _ [] []
        (roundStep call 1 1 0 ⟨input, [], 0, [], [], []⟩).cells []).2
  · intro call conv m thr rounds sr ss r rs st cv hge hlt hcv hstop hconf
    rw [roundLoopGo, if_pos ⟨rfl, hge, hlt⟩]
    simp only [hcv]
    rw [if_pos ⟨hstop, hconf⟩]
  · intro call conv cp input rounds resume dirE auto m thr hconv
    rw [run_debate]
    exact roundLoopGo_no_stop call conv auto m thr rounds _ 0 hconv _ _

theorem c3_convergence_stop_witness :
    (run_debate call0 convStop2 cpNone (str "T") 3 false false true 2
        70).rounds_completed = 2 ∧
    (run_debate call0 convStop2 cpNone (str "T") 3 false false true 2
        70).stop_reason = some (str "konvergiert") ∧
    roundLoopGo call0 convStopNow true 0 0 2 1 0 [1] ⟨[], [], 0, [], [], []⟩ =
      ⟨(roundStep call0 1 1 0 ⟨[], [], 0, [], [], []⟩).text,
        (roundStep call0 1 1 0 ⟨[], [], 0, [], [], []⟩).flog, 1,
        some (str "sofort"),
        (roundStep call0 1 1 0 ⟨[], [], 0, [], [], []⟩).cells,
        [] ++ [1], [] ++ [(1, [])]⟩ ∧
    (run_debate call0 conv0 cpNone (str "T") 2 false false true 1
        50).stop_reason = none := by
  obtain ⟨hA, hB, hC⟩ := c3_convergence_stop
  exact ⟨(hA call0 convStop2 cpNone (str "T") (str "konvergiert")
      (fun db da rc => rfl)).1,
    (hA call0 convStop2 cpNone (str "T") (str "konvergiert")
      (fun db da rc => rfl)).2.1,
    hB call0 convStopNow 0 0 2 1 0 1 [] ⟨[], [], 0, [], [], []⟩
      ⟨true, 90, str "sofort"⟩ (by decide) (by decide) rfl rfl (by decide),
    hC call0 conv0 cpNone (str "T") 2 false false true 1 50
      (fun r db da rc cv h => nomatch h)⟩

/-! ## Claim C7: resume scan on a complete round prefix -/

theorem runStepsAux_nil (call : Nat → Str → Str → Str) (r sr ss : Nat)
    (hist : Str) (st : StepState) :
    runStepsAux call r sr ss hist [] st = st := rfl

/-- With `start_step = 0` (its only value in the source) the skip guard
never fires, so each listed step executes. -/
theorem runStepsAux_cons_zero (call : Nat → Str → Str → Str) (r sr : Nat)
    (hist : Str) (i : Nat) (l : List Nat) (st : StepState) :
    runStepsAux call r sr 0 hist (i :: l) st =
      runStepsAux call r sr 0 hist l
        ⟨(parse_structured_output (call i st.text hist)).1,
          st.flog ++ logHeader (stepNames.getD i [])  r
            (parse_structured_output (call i st.text hist)).2,
          st.rcrit ++ str "[" ++ stepNames.getD i [] ++ str "]\n" ++
            (parse_structured_output (call i st.text hist)).2 ++ str "\n\n",
          st.cells ++ [⟨r, i, hist⟩]⟩ := by
  rw [runStepsAux, if_neg (fun h => Nat.not_lt_zero i h.2)]

theorem stateAfter_snd (call : Nat → Str → Str → Str) (input : Str) :
    ∀ j, (stateAfter call input j).2 = accLog runNameOf call input j := by
  intro j
  induction j with
  | zero => rfl
  | succ k ih =>
    have h1 : stateAfter call input (k + 1) =
        debateRound call (k + 1) (stateAfter call input k) := rfl
    rw [h1, debateRound]
    simp only [runStepsAux_cons_zero, runStepsAux_nil]
    rw [accLog, ← ih]
    have hdb2 : docBeforeCell call input (k + 1) 2 =
        (parse_structured_output (call 1 (docBeforeCell call input (k + 1) 1)
          (roundHist call input (k + 1)))).1 := rfl
    have hdb1 : docBeforeCell call input (k + 1) 1 =
        (parse_structured_output (call 0 (docBeforeCell call input (k + 1) 0)
          (roundHist call input (k + 1)))).1 := rfl
    have hdb0 : docBeforeCell call input (k + 1) 0 =
        (stateAfter call input k).1 := rfl
    have hrh : roundHist call input (k + 1) =
        compress_critique_log (stateAfter call input k).2 4000 := rfl
    simp only [roundLogN, runNameOf, cellCrit, hdb2, hdb1, hdb0, hrh,
      List.append_assoc]

theorem stateAfter_fst_succ (call : Nat → Str → Str → Str) (input : Str)
    (k : Nat) :
    (stateAfter call input (k + 1)).1 = cellDoc call input (k + 1) 2 := by
  have h1 : stateAfter call input (k + 1) =
      debateRound call (k + 1) (stateAfter call input k) := rfl
  rw [h1, debateRound]
  simp only [runStepsAux_cons_zero, runStepsAux_nil]
  have hdb2 : docBeforeCell call input (k + 1) 2 =
      (parse_structured_output (call 1 (docBeforeCell call input (k + 1) 1)
        (roundHist call input (k + 1)))).1 := rfl
  have hdb1 : docBeforeCell call input (k + 1) 1 =
      (parse_structured_output (call 0 (docBeforeCell call input (k + 1) 0)
        (roundHist call input (k + 1)))).1 := rfl
  have hdb0 : docBeforeCell call input (k + 1) 0 =
      (stateAfter call input k).1 := rfl
  have hrh : roundHist call input (k + 1) =
      compress_critique_log (stateAfter call input k).2 4000 := rfl
  simp only [cellDoc, hdb2, hdb1, hdb0, hrh]

theorem frpGo_complete (call : Nat → Str → Str → Str) (input : Str)
    (cp : Nat → Nat → Option Checkpoint) (total : Nat) :
    ∀ (j : Nat) (rest : List (Nat × Nat)) (doc log : Str) (lastR : Nat),
      (∀ r i, 1 ≤ r → r ≤ j → i < 3 →
        cp r i = some ⟨cellDoc call input r i, cellCrit call input r i⟩) →
      frpGo cp total (cellList j ++ rest) doc log lastR =
        frpGo cp total rest (if j = 0 then doc else cellDoc call input j 2)
          (log ++ accLog capNameOf call input j)
          (if j = 0 then lastR else j) := by
  intro j
  induction j with
  | zero =>
    intro rest doc log lastR _
    simp [cellList, accLog]
  | succ k ih =>
    intro rest doc log lastR hcp
    rw [cellList, List.append_assoc]
    rw [ih ([(k + 1, 0), (k + 1, 1), (k + 1, 2)] ++ rest) doc log lastR
      (fun r i h1 h2 h3 => hcp r i h1 (le_trans h2 (Nat.le_succ k)) h3)]
    have hc0 := hcp (k + 1) 0 (by omega) (le_refl _) (by omega)
    have hc1 := hcp (k + 1) 1 (by omega) (le_refl _) (by omega)
    have hc2 := hcp (k + 1) 2 (by omega) (le_refl _) (by omega)
    simp only [List.cons_append, frpGo, hc0, hc1, hc2]
    simp only [accLog, roundLogN, capNameOf, List.append_assoc,
      Nat.succ_ne_zero, if_neg, if_false]
    simp

theorem cellList_split : ∀ (t k : Nat), k < t →
    ∃ tail, cellList t = cellList k ++ ((k + 1, 0) :: tail) := by
  intro t
  induction t with
  | zero => intro k hk; exact absurd hk (Nat.not_lt_zero k)
  | succ m ih =>
    intro k hk
    by_cases hkm : k = m
    · subst hkm
      exact ⟨[(k + 1, 1), (k + 1, 2)], by rw [cellList]⟩
    · obtain ⟨tail, htail⟩ := ih k (by omega)
      refine ⟨tail ++ [(m + 1, 0), (m + 1, 1), (m + 1, 2)], ?_⟩
      rw [cellList, htail]
      simp [List.append_assoc]

/-- Claim C7 (amended): on a checkpoint directory holding exactly the
uninterrupted run's artifacts for every cell of rounds `1..k` and
nothing at round `k + 1`, the resume scan returns `resume_round = k + 1`,
the document saved by round `k`'s last reviewer, and the accumulated log
with headers named by `capNameOf`; the uninterrupted run's own log uses
the same entries and headers but named by `runNameOf`; when every cell
through `max_rounds` exists the scan returns `max_rounds + 1`; and the
two naming schemes agree for claude and perplexity but differ for the
third reviewer (`"Chatgpt"` from `str.capitalize` versus the run's
`"ChatGPT"`), which is the one deviation from the claim as stated. -/
theorem c7_resume_scan_amended :
    (∀ (call : Nat → Str → Str → Str) (input : Str) (total k : Nat)
        (cp : Nat → Nat → Option Checkpoint),
      1 ≤ k → k < total →
      (∀ r i, 1 ≤ r → r ≤ k → i < 3 →
        cp r i = some ⟨cellDoc call input r i, cellCrit call input r i⟩) →
      cp (k + 1) 0 = none →
      find_resume_point cp total =
        (k + 1, cellDoc call input k 2, accLog capNameOf call input k)) ∧
    (∀ (call : Nat → Str → Str → Str) (input : Str) (j : Nat),
      (stateAfter call input j).2 = accLog runNameOf call input j) ∧
    (∀ (call : Nat → Str → Str → Str) (input : Str) (total : Nat)
        (cp : Nat → Nat → Option Checkpoint),
      1 ≤ total →
      (∀ r i, 1 ≤ r → r ≤ total → i < 3 →
        cp r i = some ⟨cellDoc call input r i, cellCrit call input r i⟩) →
      find_resume_point cp total =
        (total + 1, cellDoc call input total 2,
          accLog capNameOf call input total)) ∧
    (capNameOf 0 = runNameOf 0 ∧ capNameOf 1 = runNameOf 1 ∧
      capNameOf 2 ≠ runNameOf 2) := by
  refine ⟨?_, ?_, ?_, by decide⟩
  · intro call input total k cp hk hkt hcp hgap
    obtain ⟨tail, htail⟩ := cellList_split total k hkt
    rw [find_resume_point, htail]
    rw [frpGo_complete call input cp total k ((k + 1, 0) :: tail) [] [] 0 hcp]
    rw [if_neg (by omega : ¬ k = 0), if_neg (by omega : ¬ k = 0)]
    rw [frpGo]
    simp only [hgap]
    rw [if_neg (by omega : ¬ k = 0)]
    simp
  · intro call input j
    exact stateAfter_snd call input j
  · intro call input total cp htot hcp
    rw [find_resume_point, ← List.append_nil (cellList total)]
    rw [frpGo_complete call input cp total total [] [] [] 0 hcp]
    rw [if_neg (by omega : ¬ total = 0), if_neg (by omega : ¬ total = 0)]
    rw [frpGo]
    simp

theorem c7_resume_scan_amended_witness :
    find_resume_point cpRound1 2 =
      (2, cellDoc call0 (str "T") 1 2, accLog capNameOf call0 (str "T") 1) :=
  c7_resume_scan_amended.1 call0 (str "T") 2 1 cpRound1 (by decide) (by decide)
    (fun r i h1 h2 h3 => by
      have hr : r = 1 := by omega
      subst hr
      interval_cases i <;> decide)
    (by decide)

set_option maxRecDepth 10000 in
/-- Claim C7 (counterexample): `cpRound1` holds exactly the artifacts the
`call0`-driven run saves for round 1 (and nothing for round 2), the scan
returns round 2 and round 1's last document, but the resumed critique
log differs from the uninterrupted run's log — its third header reads
`Chatgpt` where the run wrote `ChatGPT`. -/
theorem c7_resume_log_header_cex :
    cpRound1 1 0 = some ⟨cellDoc call0 (str "T") 1 0,
      cellCrit call0 (str "T") 1 0⟩ ∧
    cpRound1 1 1 = some ⟨cellDoc call0 (str "T") 1 1,
      cellCrit call0 (str "T") 1 1⟩ ∧
    cpRound1 1 2 = some ⟨cellDoc call0 (str "T") 1 2,
      cellCrit call0 (str "T") 1 2⟩ ∧
    cpRound1 2 0 = none ∧
    (find_resume_point cpRound1 2).1 = 2 ∧
    (find_resume_point cpRound1 2).2.1 = (stateAfter call0 (str "T") 1).1 ∧
    (find_resume_point cpRound1 2).2.2 ≠ (stateAfter call0 (str "T") 1).2 := by
  decide

end StrategyDebate
